import Mathlib

/-!
Verification of the shotizam size-attribution tool against its
specification.  The Go sources (gosym/symtab.go, gosym/pclntab.go,
gosym/extra.go, shotizam.go) are shallowly embedded: byte buffers are
`List Nat` (each element a byte value), Go strings are `List Char`,
machine integers are `Nat`/`Int` with explicit reductions modulo 2^32 or
2^64 where the Go code relies on fixed-width behaviour, panics and
out-of-bounds slice accesses are `Option` failures, and `log.Fatal`
aborts are `Option` failures as well.
-/

/-! ## Symbol-name parsing (gosym/symtab.go, Sym.PackageName) -/

/-- Go strings.HasPrefix: pre is a prefix of s. -/
def goStartsWith (s pre : List Char) : Bool := pre.isPrefixOf s

/-- Go strings.Index for a single-character needle: index of the first
occurrence of c in l, or none (Go returns -1). -/
def idxOf? (l : List Char) (c : Char) : Option Nat :=
  match l with
  | [] => none
  | a :: rest => if a = c then some 0 else (idxOf? rest c).map (· + 1)

/-- Go strings.LastIndex for a single-character needle: index of the last
occurrence of c in l, or none (Go returns -1). -/
def lastIdxOf? (l : List Char) (c : Char) : Option Nat :=
  match l with
  | [] => none
  | a :: rest =>
    match lastIdxOf? rest c with
    | some i => some (i + 1)
    | none => if a = c then some 0 else none

/-- The pathend computation of Sym.PackageName: index of the last '/',
or 0 when there is none (Go strings.LastIndex returns -1, clamped to 0). -/
def pathendOf (name : List Char) : Nat :=
  match lastIdxOf? name '/' with
  | some i => i
  | none => 0

/-- Embedding of Sym.PackageName (gosym/symtab.go:43-61).  A name starting
with "go." or "type." has no package; otherwise pathend is the index of
the last slash (0 if none), and the package is the prefix of the name up
to the first dot of name[pathend:], or empty if there is no such dot. -/
def packageNameL (name : List Char) : List Char :=
  if goStartsWith name ['g', 'o', '.'] || goStartsWith name ['t', 'y', 'p', 'e', '.'] then
    []
  else
    match idxOf? (name.drop (pathendOf name)) '.' with
    | some i => name.take (pathendOf name + i)
    | none => []

/-- The spec's description of package derivation, stated independently of
the code: with p the index of the last '/' (or 0 if there is no '/'), the
package is the prefix of the name up to (excluding) the first '.'
occurring at or after position p, searched over the positions of the whole
name; absent dot means no package. -/
def firstIdxFrom (l : List Char) (c : Char) (p : Nat) : Option Nat :=
  (List.range l.length).find? (fun j => decide (p ≤ j) && (l[j]? == some c))

/-- Modelled from the spec's words (§4.5 package-name derivation), used as
the refinement target for the code's packageNameL. -/
def packageNameSpecL (name : List Char) : List Char :=
  if goStartsWith name ['g', 'o', '.'] || goStartsWith name ['t', 'y', 'p', 'e', '.'] then
    []
  else
    match firstIdxFrom name '.' ((lastIdxOf? name '/').getD 0) with
    | some j => name.take j
    | none => []

/-! ### Characterizations of the index primitives -/

theorem idxOf?_eq_none_iff (l : List Char) (c : Char) :
    idxOf? l c = none ↔ ∀ j : Nat, l[j]? ≠ some c := by
  induction l with
  | nil => simp [idxOf?]
  | cons a rest ih =>
    by_cases hac : a = c
    · subst hac
      simp only [idxOf?, if_pos rfl]
      constructor
      · intro h; cases h
      · intro h; exact absurd (List.getElem?_cons_zero) (h 0)
    · simp only [idxOf?, if_neg hac, Option.map_eq_none', ih]
      constructor
      · intro h j
        cases j with
        | zero => simpa using hac
        | succ j => simpa using h j
      · intro h j
        simpa using h (j + 1)

theorem idxOf?_eq_some_iff (l : List Char) (c : Char) (i : Nat) :
    idxOf? l c = some i ↔ l[i]? = some c ∧ ∀ j : Nat, j < i → l[j]? ≠ some c := by
  induction l generalizing i with
  | nil => simp [idxOf?]
  | cons a rest ih =>
    by_cases hac : a = c
    · subst hac
      simp only [idxOf?, if_pos rfl]
      cases i with
      | zero => simp
      | succ i =>
        constructor
        · intro h; cases h
        · rintro ⟨-, hmin⟩
          exact absurd List.getElem?_cons_zero (hmin 0 (Nat.succ_pos i))
    · simp only [idxOf?, if_neg hac]
      cases i with
      | zero =>
        constructor
        · intro h
          rcases Option.map_eq_some'.mp h with ⟨i', -, hi'⟩
          cases hi'
        · rintro ⟨h0, -⟩
          rw [List.getElem?_cons_zero] at h0
          exact absurd (Option.some.inj h0) hac
      | succ i =>
        constructor
        · intro h
          rcases Option.map_eq_some'.mp h with ⟨i', hi', hadd⟩
          have hi2 : idxOf? rest c = some i := by
            have hii : i' = i := by omega
            rwa [hii] at hi'
          rcases (ih i).mp hi2 with ⟨hget, hmin⟩
          refine ⟨by simpa using hget, ?_⟩
          intro j hji
          cases j with
          | zero => simpa using hac
          | succ j => simpa using hmin j (by omega)
        · rintro ⟨hget, hmin⟩
          have hrest : idxOf? rest c = some i := by
            refine (ih i).mpr ⟨by simpa using hget, ?_⟩
            intro j hji
            simpa using hmin (j + 1) (by omega)
          simp [hrest]

theorem lastIdxOf?_eq_none_iff (l : List Char) (c : Char) :
    lastIdxOf? l c = none ↔ ∀ j : Nat, l[j]? ≠ some c := by
  induction l with
  | nil => simp [lastIdxOf?]
  | cons a rest ih =>
    simp only [lastIdxOf?]
    cases hrest : lastIdxOf? rest c with
    | some i =>
      constructor
      · intro h; cases h
      · intro h
        exfalso
        have hall : ∀ j : Nat, rest[j]? ≠ some c := fun j => by simpa using h (j + 1)
        rw [ih.mpr hall] at hrest
        cases hrest
    | none =>
      by_cases hac : a = c
      · subst hac
        simp only [if_pos rfl]
        constructor
        · intro h; cases h
        · intro h; exact absurd List.getElem?_cons_zero (h 0)
      · simp only [if_neg hac]
        constructor
        · intro _ j
          cases j with
          | zero => simpa using hac
          | succ j => simpa using (ih.mp hrest) j
        · intro _; trivial

theorem lastIdxOf?_eq_some_iff (l : List Char) (c : Char) (i : Nat) :
    lastIdxOf? l c = some i ↔ l[i]? = some c ∧ ∀ j : Nat, i < j → l[j]? ≠ some c := by
  induction l generalizing i with
  | nil => simp [lastIdxOf?]
  | cons a rest ih =>
    simp only [lastIdxOf?]
    cases hrest : lastIdxOf? rest c with
    | some i' =>
      rcases (ih i').mp hrest with ⟨hget, hmax⟩
      constructor
      · intro h
        have hii : i = i' + 1 := by
          cases h; rfl
        subst hii
        refine ⟨by simpa using hget, ?_⟩
        intro j hji
        cases j with
        | zero => omega
        | succ j => simpa using hmax j (by omega)
      · rintro ⟨hgi, hmi⟩
        cases i with
        | zero =>
          exact absurd (by simpa using hget) (by simpa using hmi (i' + 1) (Nat.succ_pos i'))
        | succ i =>
          have : lastIdxOf? rest c = some i := by
            refine (ih i).mpr ⟨by simpa using hgi, ?_⟩
            intro j hji
            simpa using hmi (j + 1) (by omega)
          rw [hrest] at this
          cases this
          rfl
    | none =>
      have hall : ∀ j, rest[j]? ≠ some c := (lastIdxOf?_eq_none_iff rest c).mp hrest
      by_cases hac : a = c
      · subst hac
        simp only [if_pos rfl]
        cases i with
        | zero =>
          simp only [List.getElem?_cons_zero, true_and]
          constructor
          · intro _ j hj
            cases j with
            | zero => omega
            | succ j => simpa using hall j
          · intro _; rfl
        | succ i =>
          constructor
          · intro h; cases h
          · rintro ⟨hgi, -⟩
            exact absurd (by simpa using hgi) (hall i)
      · simp only [if_neg hac]
        constructor
        · intro h; cases h
        · rintro ⟨hgi, -⟩
          cases i with
          | zero => exact absurd (by simpa using hgi) hac
          | succ i => exact absurd (by simpa using hgi) (hall i)

theorem find?_range_eq_none_iff {f : Nat → Bool} {n : Nat} :
    (List.range n).find? f = none ↔ ∀ k : Nat, k < n → f k = false := by
  rw [List.find?_eq_none]
  constructor
  · intro h k hk
    have := h k (List.mem_range.mpr hk)
    simpa using this
  · intro h x hx
    simpa using h x (List.mem_range.mp hx)

theorem find?_range_eq_some_iff {f : Nat → Bool} {n j : Nat} :
    (List.range n).find? f = some j ↔
      j < n ∧ f j = true ∧ ∀ k : Nat, k < j → f k = false := by
  induction n generalizing j with
  | zero => simp
  | succ n ih =>
    rw [List.range_succ, List.find?_append]
    cases hfn : (List.range n).find? f with
    | some j' =>
      show some j' = some j ↔ _
      rcases ih.mp hfn with ⟨hj'n, hfj', hmin⟩
      constructor
      · intro h
        have hjj : j = j' := (Option.some_inj.mp h).symm
        subst hjj
        exact ⟨by omega, hfj', hmin⟩
      · rintro ⟨hjn, hfj, hmin'⟩
        have h1 : ¬ j' < j := fun hlt => by rw [hmin' j' hlt] at hfj'; cases hfj'
        have h2 : ¬ j < j' := fun hlt => by rw [hmin j hlt] at hfj; cases hfj
        have hjj : j = j' := by omega
        rw [hjj]
    | none =>
      show List.find? f [n] = some j ↔ _
      have hall : ∀ k : Nat, k < n → f k = false := find?_range_eq_none_iff.mp hfn
      by_cases hfnn : f n = true
      · simp only [List.find?, hfnn]
        constructor
        · intro h
          have hjn2 : j = n := (Option.some_inj.mp h).symm
          subst hjn2
          exact ⟨Nat.lt_succ_self _, hfnn, hall⟩
        · rintro ⟨hjn, hfj, hmin'⟩
          have hnj : ¬ j < n := fun hlt => by rw [hall j hlt] at hfj; cases hfj
          have hjn' : j = n := by omega
          rw [hjn']
      · have hfalse : f n = false := by simpa using hfnn
        simp only [List.find?, hfalse]
        constructor
        · intro h; cases h
        · rintro ⟨hjn, hfj, hmin'⟩
          have hj : j < n := by
            rcases Nat.lt_succ_iff_lt_or_eq.mp hjn with h | h
            · exact h
            · exfalso; rw [h, hfalse] at hfj; cases hfj
          rw [hall j hj] at hfj; cases hfj

theorem firstIdxFrom_eq_some_iff (l : List Char) (c : Char) (p j : Nat) :
    firstIdxFrom l c p = some j ↔
      p ≤ j ∧ l[j]? = some c ∧ ∀ k : Nat, p ≤ k → k < j → l[k]? ≠ some c := by
  unfold firstIdxFrom
  rw [find?_range_eq_some_iff]
  constructor
  · rintro ⟨hjn, hfj, hmin⟩
    have hpj : p ≤ j ∧ l[j]? = some c := by
      simpa [Bool.and_eq_true, decide_eq_true_eq] using hfj
    refine ⟨hpj.1, hpj.2, ?_⟩
    intro k hpk hkj hk
    have := hmin k hkj
    simp [hpk, hk] at this
  · rintro ⟨hpj, hgj, hmin⟩
    have hjlen : j < l.length := by
      rcases List.getElem?_eq_some.mp hgj with ⟨h, -⟩
      exact h
    refine ⟨hjlen, by simp [hpj, hgj], ?_⟩
    intro k hkj
    by_cases hpk : p ≤ k
    · have hne := hmin k hpk hkj
      simp [hpk, hne]
    · simp [hpk]

theorem firstIdxFrom_eq_none_iff (l : List Char) (c : Char) (p : Nat) :
    firstIdxFrom l c p = none ↔ ∀ k : Nat, p ≤ k → l[k]? ≠ some c := by
  unfold firstIdxFrom
  rw [find?_range_eq_none_iff]
  constructor
  · intro h k hpk hk
    have hklen : k < l.length := by
      rcases List.getElem?_eq_some.mp hk with ⟨hh, -⟩
      exact hh
    have := h k hklen
    simp [hpk, hk] at this
  · intro h k hk
    by_cases hpk : p ≤ k
    · have hne := h k hpk
      simp [hpk, hne]
    · simp [hpk]

/-- The dot search of the code (index within the tail) agrees with the
dot search of the spec (first index at or after p over the whole name). -/
theorem firstIdxFrom_eq_idxOf?_drop (name : List Char) (c : Char) (p : Nat) :
    firstIdxFrom name c p = (idxOf? (name.drop p) c).map (p + ·) := by
  cases hidx : idxOf? (name.drop p) c with
  | none =>
    rw [Option.map_none', firstIdxFrom_eq_none_iff]
    intro k hpk
    have hall := (idxOf?_eq_none_iff _ _).mp hidx
    have : name[k]? = (name.drop p)[k - p]? := by
      rw [List.getElem?_drop]; congr 1; omega
    rw [this]
    exact hall (k - p)
  | some i =>
    rw [Option.map_some', firstIdxFrom_eq_some_iff]
    rcases (idxOf?_eq_some_iff _ _ _).mp hidx with ⟨hget, hmin⟩
    refine ⟨by omega, ?_, ?_⟩
    · rw [← List.getElem?_drop]; exact hget
    · intro k hpk hki
      have : name[k]? = (name.drop p)[k - p]? := by
        rw [List.getElem?_drop]; congr 1; omega
      rw [this]
      exact hmin (k - p) (by omega)

/-- C2: For every symbol name, PackageName returns the empty string if the
name starts with "go." or "type."; otherwise, with p the index of the last
'/' (or 0 if there is no '/'), the prefix of the name up to (excluding) the
first '.' occurring at or after p, or the empty string if no such '.'
exists; in particular PackageName "context.(*emptyCtx).Err" = "context",
PackageName "compress/gzip.(*Reader).Read" = "compress/gzip", and
PackageName "go.buildid" = "". -/
theorem c2_packageName_matches_spec :
    (∀ name : List Char, packageNameL name = packageNameSpecL name) ∧
    packageNameL ("context.(*emptyCtx).Err".toList) = "context".toList ∧
    packageNameL ("compress/gzip.(*Reader).Read".toList) = "compress/gzip".toList ∧
    packageNameL ("go.buildid".toList) = "".toList := by
  refine ⟨?_, by decide, by decide, by decide⟩
  intro name
  unfold packageNameL packageNameSpecL
  by_cases hpre :
      (goStartsWith name ['g', 'o', '.'] || goStartsWith name ['t', 'y', 'p', 'e', '.']) = true
  · rw [if_pos hpre, if_pos hpre]
  · rw [if_neg hpre, if_neg hpre]
    have hp : (lastIdxOf? name '/').getD 0 = pathendOf name := by
      unfold pathendOf
      cases h : lastIdxOf? name '/' <;> simp
    rw [hp, firstIdxFrom_eq_idxOf?_drop]
    cases hidx : idxOf? (name.drop (pathendOf name)) '.' <;> simp

/-- C9 counterexample: PackageName is not idempotent.  On the spec's own
seed name "context.(*emptyCtx).Err" the package is "context", but applying
PackageName to "context" yields "" (no dot at or after position 0). -/
theorem c9_idempotence_counterexample :
    packageNameL (packageNameL ("context.(*emptyCtx).Err".toList)) ≠
      packageNameL ("context.(*emptyCtx).Err".toList) := by
  decide

/-- C9 amended: applying PackageName twice always yields the empty string
(the derived package name has no dot at or after its last slash), so
idempotence holds exactly for the names whose package is empty. -/
theorem c9_packageName_twice_empty :
    ∀ name : List Char, packageNameL (packageNameL name) = [] := by
  intro name
  by_cases hpre :
      (goStartsWith name ['g', 'o', '.'] || goStartsWith name ['t', 'y', 'p', 'e', '.']) = true
  · have h1 : packageNameL name = [] := by
      unfold packageNameL; rw [if_pos hpre]
    rw [h1]; decide
  · cases hidx : idxOf? (name.drop (pathendOf name)) '.' with
    | none =>
      have h1 : packageNameL name = [] := by
        unfold packageNameL; rw [if_neg hpre, hidx]
      rw [h1]; decide
    | some i =>
      have h1 : packageNameL name = name.take (pathendOf name + i) := by
        unfold packageNameL; rw [if_neg hpre, hidx]
      rw [h1]
      rcases (idxOf?_eq_some_iff _ _ _).mp hidx with ⟨hdot, hmin⟩
      -- every position of the truncated name at or after pathend is not a dot
      have hA : ∀ j : Nat, pathendOf name ≤ j →
          (name.take (pathendOf name + i))[j]? ≠ some '.' := by
        intro j hpj
        rw [List.getElem?_take]
        by_cases hj : j < pathendOf name + i
        · rw [if_pos hj]
          have hdrop : name[j]? = (name.drop (pathendOf name))[j - pathendOf name]? := by
            rw [List.getElem?_drop]; congr 1; omega
          rw [hdrop]
          exact hmin (j - pathendOf name) (by omega)
        · rw [if_neg hj]; simp
      -- the truncated name cannot start with "go." or "type." either
      have hlift : ∀ pre : List Char,
          goStartsWith (name.take (pathendOf name + i)) pre = true →
          goStartsWith name pre = true := by
        intro pre h
        have h1' : pre <+: name.take (pathendOf name + i) := List.isPrefixOf_iff_prefix.mp h
        have h2' : name.take (pathendOf name + i) <+: name := List.take_prefix _ _
        exact List.isPrefixOf_iff_prefix.mpr (h1'.trans h2')
      have hpre2 : ¬ (goStartsWith (name.take (pathendOf name + i)) ['g', 'o', '.'] ||
          goStartsWith (name.take (pathendOf name + i)) ['t', 'y', 'p', 'e', '.']) = true := by
        intro hcon
        apply hpre
        rcases Bool.or_eq_true _ _ |>.mp hcon with h | h
        · exact Bool.or_eq_true _ _ |>.mpr (Or.inl (hlift _ h))
        · exact Bool.or_eq_true _ _ |>.mpr (Or.inr (hlift _ h))
      -- the pathend of the truncated name is at least the pathend of name
      have hpp : pathendOf name ≤ pathendOf (name.take (pathendOf name + i)) := by
        cases hq : lastIdxOf? name '/' with
        | none =>
          have hzero : pathendOf name = 0 := by unfold pathendOf; rw [hq]
          omega
        | some q =>
          rcases (lastIdxOf?_eq_some_iff _ _ _).mp hq with ⟨hslash, hmax⟩
          have hpq : pathendOf name = q := by unfold pathendOf; rw [hq]
          -- i cannot be 0, because position q of name holds '/'
          have hi1 : 1 ≤ i := by
            rcases Nat.eq_zero_or_pos i with h0 | h1
            · exfalso
              rw [h0] at hdot
              have hd0 : (name.drop (pathendOf name))[0]? = name[pathendOf name]? := by
                simp
              rw [hd0, hpq, hslash] at hdot
              cases hdot
            · exact h1
          rw [hpq]
          have hrq : (name.take (q + i))[q]? = some '/' := by
            rw [List.getElem?_take, if_pos (by omega)]
            exact hslash
          cases hqr : lastIdxOf? (name.take (q + i)) '/' with
          | none =>
            exact absurd hrq (((lastIdxOf?_eq_none_iff _ _).mp hqr) q)
          | some q' =>
            have hpq' : pathendOf (name.take (q + i)) = q' := by
              unfold pathendOf; rw [hqr]
            rcases (lastIdxOf?_eq_some_iff _ _ _).mp hqr with ⟨-, hmax'⟩
            rw [hpq']
            by_contra hlt
            exact absurd hrq (hmax' q (by omega))
      -- conclude: no dot at or after the new pathend, so the package is empty
      unfold packageNameL
      rw [if_neg hpre2]
      have hnone : idxOf?
          ((name.take (pathendOf name + i)).drop
            (pathendOf (name.take (pathendOf name + i)))) '.' = none := by
        rw [idxOf?_eq_none_iff]
        intro m
        rw [List.getElem?_drop]
        exact hA _ (by omega)
      rw [hnone]

/-! ## Fixed-width integer helpers -/

/-- Two's-complement reading of a 32-bit pattern (Go int32(u) for a uint32 u). -/
def asInt32 (n : Nat) : Int :=
  if n % 2 ^ 32 < 2 ^ 31 then ((n % 2 ^ 32 : Nat) : Int)
  else ((n % 2 ^ 32 : Nat) : Int) - 2 ^ 32

/-- Reduce an Int into the int32 range; Go int32 addition wraps. -/
def int32ofInt (x : Int) : Int := (x + 2 ^ 31) % 2 ^ 32 - 2 ^ 31

/-- Reduce an Int into the int64 range; Go int64 addition wraps. -/
def int64ofInt (x : Int) : Int := (x + 2 ^ 63) % 2 ^ 64 - 2 ^ 63

/-- Two's-complement reading of a 64-bit pattern (Go int64(u) for a uint64 u). -/
def asInt64 (n : Nat) : Int :=
  if n % 2 ^ 64 < 2 ^ 63 then ((n % 2 ^ 64 : Nat) : Int)
  else ((n % 2 ^ 64 : Nat) : Int) - 2 ^ 64

/-! ## Varint decoders

encoding/binary.Uvarint and encoding/binary.Varint (used by
Func.ForeachTableEntry), and LineTable.readvarint (pclntab.go:298-311,
used by LineTable.step/pcvalue).  A result of none models the caller's
panic on a truncated buffer (0 bytes) or overflow (negative byte count):
both make ForeachTableEntry panic("bogus"), and a truncated buffer makes
readvarint index out of range. -/

/-- encoding/binary.Uvarint: x is the accumulator, s the shift, i the byte
index; returns (value, bytes consumed from the original buffer, rest). -/
def uvarintAux : List Nat → Nat → Nat → Nat → Option (Nat × Nat × List Nat)
  | [], _, _, _ => none
  | b :: rest, x, s, i =>
    if i = 10 then none
    else if b < 128 then
      if i = 9 ∧ 1 < b then none
      else some ((x ||| (b <<< s)) % 2 ^ 64, i + 1, rest)
    else
      uvarintAux rest ((x ||| ((b &&& 127) <<< s)) % 2 ^ 64) (s + 7) (i + 1)

def uvarint (data : List Nat) : Option (Nat × Nat × List Nat) :=
  uvarintAux data 0 0 0

/-- The zig-zag step of encoding/binary.Varint: x = int64(ux >> 1),
complemented when the low bit is set. -/
def zigzag64 (ux : Nat) : Int :=
  if ux % 2 = 1 then -((ux >>> 1 : Nat) : Int) - 1 else ((ux >>> 1 : Nat) : Int)

def varint (data : List Nat) : Option (Int × Nat × List Nat) :=
  (uvarint data).map (fun r => (zigzag64 r.1, r.2.1, r.2.2))

/-- LineTable.readvarint: base-128 little-endian groups accumulated into a
uint32, no byte-count limit; none models the index-out-of-range panic on a
truncated buffer. -/
def readvarintAux : List Nat → Nat → Nat → Option (Nat × List Nat)
  | [], _, _ => none
  | b :: rest, v, shift =>
    let v2 := (v ||| ((b &&& 127) <<< shift)) % 2 ^ 32
    if b &&& 128 = 0 then some (v2, rest) else readvarintAux rest v2 (shift + 7)

def readvarint (p : List Nat) : Option (Nat × List Nat) :=
  readvarintAux p 0 0

/-! ## LineTable.step and LineTable.pcvalue (pclntab.go:349-380) -/

/-- The value-delta decode inside LineTable.step: uvdelta is the uint32
read by readvarint; odd values are complemented after the shift, and the
result is interpreted as an int32. -/
def stepVDelta (uvdelta : Nat) : Int :=
  asInt32 (if uvdelta &&& 1 ≠ 0 then 2 ^ 32 - 1 - (uvdelta >>> 1) else uvdelta >>> 1)

/-- The zig-zag decoding as the spec words it: bitwise-not of (uvd >> 1)
when the low bit of uvd is set, and (uvd >> 1) otherwise, as a signed
value (two's-complement bitwise-not of a nonnegative x is -x-1). -/
def specZigzag32 (uvd : Nat) : Int :=
  if uvd % 2 = 1 then -((uvd / 2 : Nat) : Int) - 1 else ((uvd / 2 : Nat) : Int)

structure StepState where
  p : List Nat
  pc : Nat
  val : Int
deriving DecidableEq

/-- LineTable.step: none models a readvarint panic, some none the
terminator return false, some (some st) a successful step. -/
def stepM (q : Nat) (p : List Nat) (pc : Nat) (val : Int) (first : Bool) :
    Option (Option StepState) :=
  match readvarint p with
  | none => none
  | some (uvdelta, p1) =>
    if uvdelta = 0 ∧ first = false then some none
    else
      match readvarint p1 with
      | none => none
      | some (pcd, p2) =>
        let pcdelta := (pcd * q) % 2 ^ 32
        some (some ⟨p2, (pc + pcdelta) % 2 ^ 64, int32ofInt (val + stepVDelta uvdelta)⟩)

inductive PRes
  | panic
  | fuelOut
  | val (v : Int)
deriving DecidableEq

/-- The loop of LineTable.pcvalue: repeatedly step, returning val once the
target pc is passed, -1 if the table ends first.  The fuel only bounds the
recursion; each successful step consumes at least two bytes of p, so the
initial fuel p.length / 2 + 1 is never exhausted. -/
def pcvalueAux (q entry target : Nat) : Nat → List Nat → Nat → Int → PRes
  | 0, _, _, _ => PRes.fuelOut
  | fuel + 1, p, pc, v =>
    match stepM q p pc v (pc == entry) with
    | none => PRes.panic
    | some none => PRes.val (-1)
    | some (some st) =>
      if target < st.pc then PRes.val st.val
      else pcvalueAux q entry target fuel st.p st.pc st.val

/-! ## LineTable and Func models -/

inductive ByteOrder
  | little
  | big
deriving DecidableEq

inductive GoVersion
  | ver12
  | ver116
deriving DecidableEq

/-- The fields of LineTable (pclntab.go:33-62) that the verified paths
read.  Byte buffers are the sub-slices parsePclnTab computes. -/
structure LineTableS where
  pc : Nat
  quantum : Nat
  ptrsize : Nat
  bo : ByteOrder
  vers : GoVersion
  nfunctab : Nat
  nfiletab : Nat
  funcnametab : List Nat
  cutab : List Nat
  funcdata : List Nat
  functab : List Nat
  filetab : List Nat
  pctab : List Nat
deriving DecidableEq

/-- The fields of Func (symtab.go:87-106) that go12Funcs fills in and the
attribution pass reads. -/
structure FuncS where
  entry : Nat
  endPC : Nat
  offFixedFunc : Nat
  funcStructBytes : List Nat
  argSize : Nat
  offPCSP : Nat
  offPCFile : Nat
  offPCLn : Nat
  numPCData : Nat
  numFuncData : Nat
  funcID : Nat
  name : List Nat
deriving DecidableEq

/-- LineTable.pcvalue (pclntab.go:369-380): p := pctab[off:] (panic when
off exceeds the buffer), then the step loop. -/
def pcvalueM (t : LineTableS) (off : Nat) (entry target : Nat) : PRes :=
  if off ≤ t.pctab.length then
    pcvalueAux t.quantum entry target ((t.pctab.length - off) / 2 + 1)
      (t.pctab.drop off) entry (-1)
  else PRes.panic

/-! ## Func.ForeachTableEntry and Func.tableSize (symtab.go:130-165) -/

/-- One callback invocation of ForeachTableEntry: fn(val, valBytes, pc, pcBytes). -/
structure TStep where
  val : Int
  valBytes : Nat
  pc : Nat
  pcBytes : Nat
deriving DecidableEq

inductive WRes
  | panic
  | fuelOut
  | done (steps : List TStep)
deriving DecidableEq

/-- The loop of ForeachTableEntry: while data is nonempty and pc < End,
read a Varint and a Uvarint (panicking on bad byte counts), advance, and
invoke the callback.  Again fuel = data.length / 2 + 1 never runs out. -/
def walkAux (q fEnd : Nat) : Nat → List Nat → Nat → Int → WRes
  | 0, _, _, _ => WRes.fuelOut
  | fuel + 1, data, pc, val =>
    if 0 < data.length ∧ pc < fEnd then
      match varint data with
      | none => WRes.panic
      | some (vald, valBytes, rest1) =>
        let val2 := int64ofInt (val + vald)
        match uvarint rest1 with
        | none => WRes.panic
        | some (pcd, pcBytes, rest2) =>
          let pc2 := (pc + (pcd * q) % 2 ^ 64) % 2 ^ 64
          match walkAux q fEnd fuel rest2 pc2 val2 with
          | WRes.done steps => WRes.done (⟨val2, valBytes, pc2, pcBytes⟩ :: steps)
          | r => r
    else WRes.done []

def walkEntriesRun (q fEnd : Nat) (data : List Nat) (pc : Nat) (val : Int) : WRes :=
  walkAux q fEnd (data.length / 2 + 1) data pc val

/-- Func.ForeachTableEntry (symtab.go:138-165): off = 0 means no table;
otherwise walk funcdata[off:] from (f.Entry, -1).  none models a panic. -/
def foreachTableEntryM (t : LineTableS) (f : FuncS) (off : Nat) : Option (List TStep) :=
  if off = 0 then some []
  else if off ≤ t.funcdata.length then
    match walkEntriesRun t.quantum f.endPC (t.funcdata.drop off) f.entry (-1) with
    | WRes.done steps => some steps
    | _ => none
  else none

/-- Func.tableSize (symtab.go:130-136): sum of valBytes + pcBytes over the
walk. -/
def tableSizeM (t : LineTableS) (f : FuncS) (off : Nat) : Option Nat :=
  (foreachTableEntryM t f off).map
    (fun steps => (steps.map (fun s => s.valBytes + s.pcBytes)).sum)

/-! ### Consumption and termination of the walkers -/

theorem readvarintAux_length {p : List Nat} {v s w : Nat} {rest : List Nat} :
    readvarintAux p v s = some (w, rest) → rest.length < p.length := by
  induction p generalizing v s with
  | nil => intro h; cases h
  | cons b tl ih =>
    intro h
    simp only [readvarintAux] at h
    split at h
    · cases h; simp
    · exact Nat.lt_trans (ih h) (by simp)

theorem uvarintAux_length {data : List Nat} {x s i v c : Nat} {rest : List Nat} :
    uvarintAux data x s i = some (v, c, rest) → rest.length < data.length := by
  induction data generalizing x s i with
  | nil => intro h; cases h
  | cons b tl ih =>
    intro h
    simp only [uvarintAux] at h
    split at h
    · cases h
    · split at h
      · split at h
        · cases h
        · cases h; simp
      · exact Nat.lt_trans (ih h) (by simp)

theorem varint_length {data : List Nat} {vd : Int} {n : Nat} {rest : List Nat} :
    varint data = some (vd, n, rest) → rest.length < data.length := by
  intro h
  unfold varint at h
  rcases Option.map_eq_some'.mp h with ⟨⟨v, c, r⟩, hu, heq⟩
  cases heq
  unfold uvarint at hu
  exact uvarintAux_length hu

theorem uvarint_length {data : List Nat} {v c : Nat} {rest : List Nat} :
    uvarint data = some (v, c, rest) → rest.length < data.length := by
  intro h
  unfold uvarint at h
  exact uvarintAux_length h

theorem walkAux_zero (q fEnd : Nat) (data : List Nat) (pc : Nat) (val : Int) :
    walkAux q fEnd 0 data pc val = WRes.fuelOut := rfl

theorem walkAux_succ (q fEnd fuel : Nat) (data : List Nat) (pc : Nat) (val : Int) :
    walkAux q fEnd (fuel + 1) data pc val =
      if 0 < data.length ∧ pc < fEnd then
        match varint data with
        | none => WRes.panic
        | some (vald, valBytes, rest1) =>
          match uvarint rest1 with
          | none => WRes.panic
          | some (pcd, pcBytes, rest2) =>
            match walkAux q fEnd fuel rest2 ((pc + (pcd * q) % 2 ^ 64) % 2 ^ 64)
                (int64ofInt (val + vald)) with
            | WRes.done steps =>
              WRes.done (⟨int64ofInt (val + vald), valBytes,
                (pc + (pcd * q) % 2 ^ 64) % 2 ^ 64, pcBytes⟩ :: steps)
            | r => r
      else WRes.done [] := rfl

/-- Extra fuel does not change a walk that did not run out of fuel. -/
theorem walkAux_mono (q e : Nat) :
    ∀ fuel fuel' : Nat, ∀ data : List Nat, ∀ pc : Nat, ∀ val : Int,
      fuel ≤ fuel' → walkAux q e fuel data pc val ≠ WRes.fuelOut →
      walkAux q e fuel' data pc val = walkAux q e fuel data pc val := by
  intro fuel
  induction fuel with
  | zero =>
    intro fuel' data pc val _ hne
    exact absurd rfl hne
  | succ fuel ih =>
    intro fuel' data pc val hle hne
    obtain ⟨fuel2, rfl⟩ : ∃ f2, fuel' = f2 + 1 := ⟨fuel' - 1, by omega⟩
    rw [walkAux_succ] at hne ⊢
    rw [walkAux_succ]
    by_cases hcond : 0 < data.length ∧ pc < e
    · simp only [if_pos hcond] at hne ⊢
      cases hv : varint data with
      | none => simp [hv]
      | some t =>
        obtain ⟨vald, valBytes, rest1⟩ := t
        simp only [hv] at hne ⊢
        cases hu : uvarint rest1 with
        | none => simp [hu]
        | some t2 =>
          obtain ⟨pcd, pcBytes, rest2⟩ := t2
          simp only [hu] at hne ⊢
          have hinner : walkAux q e fuel rest2 ((pc + pcd * q % 2 ^ 64) % 2 ^ 64)
              (int64ofInt (val + vald)) ≠ WRes.fuelOut := by
            intro hfo
            rw [hfo] at hne
            exact hne rfl
          rw [ih fuel2 rest2 _ _ (by omega) hinner]
    · simp only [if_neg hcond] at hne ⊢

/-- C10: ForeachTableEntry terminates on every input: each loop iteration
either panics or consumes at least two bytes of the remaining data (one
byte minimum per varint), so the walk performs at most len(data)/2
iterations: with fuel len(data)/2 + 1 the loop always returns or aborts,
never exhausting the fuel, even when no zero terminator is present. -/
theorem c10_foreachTableEntry_terminates :
    ∀ (q e : Nat) (data : List Nat) (pc : Nat) (val : Int),
      walkAux q e (data.length / 2 + 1) data pc val ≠ WRes.fuelOut := by
  have key : ∀ (n q e : Nat) (data : List Nat) (pc : Nat) (val : Int),
      data.length ≤ n → walkAux q e (data.length / 2 + 1) data pc val ≠ WRes.fuelOut := by
    intro n
    induction n with
    | zero =>
      intro q e data pc val hlen
      have hd : data = [] := List.length_eq_zero.mp (by omega)
      subst hd
      rw [walkAux_succ]
      simp
    | succ n ih =>
      intro q e data pc val hlen
      rw [walkAux_succ]
      by_cases hcond : 0 < data.length ∧ pc < e
      · simp only [if_pos hcond]
        cases hv : varint data with
        | none => simp
        | some t =>
          obtain ⟨vald, valBytes, rest1⟩ := t
          simp only []
          cases hu : uvarint rest1 with
          | none => simp
          | some t2 =>
            obtain ⟨pcd, pcBytes, rest2⟩ := t2
            simp only []
            have h1 : rest1.length < data.length := varint_length hv
            have h2 : rest2.length < rest1.length := uvarint_length hu
            have hinner : walkAux q e (rest2.length / 2 + 1) rest2
                ((pc + pcd * q % 2 ^ 64) % 2 ^ 64) (int64ofInt (val + vald)) ≠
                WRes.fuelOut :=
              ih q e rest2 _ _ (by omega)
            have hmono : walkAux q e (data.length / 2) rest2
                ((pc + pcd * q % 2 ^ 64) % 2 ^ 64) (int64ofInt (val + vald)) =
                walkAux q e (rest2.length / 2 + 1) rest2
                ((pc + pcd * q % 2 ^ 64) % 2 ^ 64) (int64ofInt (val + vald)) :=
              walkAux_mono q e _ _ rest2 _ _ (by omega) hinner
            rw [hmono]
            cases hw : walkAux q e (rest2.length / 2 + 1) rest2
                ((pc + pcd * q % 2 ^ 64) % 2 ^ 64) (int64ofInt (val + vald)) with
            | panic => simp
            | fuelOut => exact absurd hw hinner
            | done steps => simp
      · simp only [if_neg hcond]
        simp
  intro q e data pc val
  exact key data.length q e data pc val (Nat.le_refl _)

/-- C5: the signed value-delta decoded by one step of the pc-value walker
is the zig-zag decoding of the unsigned varint value uvd: bitwise-not of
(uvd >> 1) when the low bit is set (i.e. -(uvd >> 1) - 1), and uvd >> 1
otherwise; in particular 3 decodes to -2, 2 decodes to 1, 0 decodes to 0. -/
theorem c5_step_vdelta_zigzag :
    (∀ uvd : Nat, uvd < 2 ^ 32 → stepVDelta uvd = specZigzag32 uvd) ∧
    stepVDelta 3 = -2 ∧ stepVDelta 2 = 1 ∧ stepVDelta 0 = 0 := by
  refine ⟨?_, by decide, by decide, by decide⟩
  intro uvd h
  unfold stepVDelta specZigzag32
  rw [Nat.and_one_is_mod, Nat.shiftRight_one]
  by_cases hodd : uvd % 2 = 1
  · rw [if_pos (show uvd % 2 ≠ 0 by omega), if_pos hodd]
    unfold asInt32
    rw [Nat.mod_eq_of_lt (show 2 ^ 32 - 1 - uvd / 2 < 2 ^ 32 by omega),
      if_neg (show ¬ 2 ^ 32 - 1 - uvd / 2 < 2 ^ 31 by omega)]
    have hd : uvd / 2 < 2 ^ 31 := by omega
    push_cast
    omega
  · rw [if_neg (show ¬ uvd % 2 ≠ 0 by omega), if_neg hodd]
    unfold asInt32
    rw [Nat.mod_eq_of_lt (show uvd / 2 < 2 ^ 32 by omega),
      if_pos (show uvd / 2 < 2 ^ 31 by omega)]

theorem c5_step_vdelta_zigzag_witness : stepVDelta 5 = specZigzag32 5 :=
  c5_step_vdelta_zigzag.1 5 (by decide)

/-! ## C7 and C3: table-absence and the 02 02 00 table -/

/-- A concrete LineTable whose pctab opens with a valid step (bytes 2, 2). -/
def ltC7 : LineTableS :=
  { pc := 0, quantum := 1, ptrsize := 8, bo := ByteOrder.little,
    vers := GoVersion.ver12, nfunctab := 0, nfiletab := 0,
    funcnametab := [], cutab := [], funcdata := [],
    functab := [], filetab := [], pctab := [2, 2] }

/-- C7 counterexample: pcvalue(0, entry, target) is not -1 for every entry
and target: pcvalue has no off == 0 check and decodes pctab from its
start, so on a pctab opening with a valid step whose pc exceeds the
target, the stepped value 0 is returned. -/
theorem c7_pcvalue_zero_counterexample :
    pcvalueM ltC7 0 0 0 = PRes.val 0 ∧ PRes.val 0 ≠ PRes.val (-1) := by
  constructor
  · decide
  · decide

/-- C7 amended: a table offset of zero means the table is absent for the
walker only: ForeachTableEntry returns immediately, performing no steps,
and tableSize(0) returns 0; pcvalue does not special-case offset zero (it
walks pctab from its beginning, as the counterexample shows). -/
theorem c7_tableSize_zero_absent :
    ∀ (t : LineTableS) (f : FuncS),
      foreachTableEntryM t f 0 = some [] ∧ tableSizeM t f 0 = some 0 := by
  intro t f
  exact ⟨rfl, rfl⟩

/-- The LineTable of the C3 counterexample: the pcvalue table 02 02 00
stored at offset 1 of funcdata. -/
def ltC3 : LineTableS :=
  { pc := 0, quantum := 1, ptrsize := 8, bo := ByteOrder.little,
    vers := GoVersion.ver12, nfunctab := 0, nfiletab := 0,
    funcnametab := [], cutab := [], funcdata := [0, 2, 2, 0],
    functab := [], filetab := [], pctab := [0, 2, 2, 0] }

/-- The Func of the C3 counterexample: entry 0, end 2 = entry + 2·quantum,
so the entry/end span exactly the one step of the table. -/
def fC3 : FuncS :=
  { entry := 0, endPC := 2, offFixedFunc := 0, funcStructBytes := [],
    argSize := 0, offPCSP := 1, offPCFile := 0, offPCLn := 0,
    numPCData := 0, numFuncData := 0, funcID := 0, name := [] }

/-- C3 counterexample: on table bytes 02 02 00 whose entry/end span exactly
one step, tableSize returns 2, not 3: the walk stops at pc >= End without
ever consuming or counting the terminator byte. -/
theorem c3_tableSize_counterexample :
    tableSizeM ltC3 fC3 1 = some 2 ∧ tableSizeM ltC3 fC3 1 ≠ some 3 := by
  constructor
  · decide
  · decide

/-- C3 amended: for a function whose pcvalue table at offset off consists
of the bytes 02 02 00 and whose entry/end span exactly that one step,
tableSize(off) returns 2 (the terminator byte is never consumed since the
walk stops once pc reaches End), and the walk performs exactly one step,
invoking the callback once with val = 0 and pc = entry + 2·quantum. -/
theorem c3_amended_tableSize_02_02_00 (t : LineTableS) (f : FuncS)
    (junk : List Nat) (q e : Nat)
    (hfd : t.funcdata = junk ++ [2, 2, 0]) (hq : t.quantum = q)
    (he : f.entry = e) (hend : f.endPC = e + 2 * q)
    (hjunk : 0 < junk.length) (hqpos : 0 < q) (hlt : e + 2 * q < 2 ^ 64) :
    foreachTableEntryM t f junk.length = some [⟨0, 1, e + 2 * q, 1⟩] ∧
    tableSizeM t f junk.length = some 2 := by
  have hdrop : t.funcdata.drop junk.length = [2, 2, 0] := by
    rw [hfd]; exact List.drop_left _ _
  have hle : junk.length ≤ t.funcdata.length := by
    rw [hfd]; simp
  have h2q : (2 * q) % 2 ^ 64 = 2 * q := Nat.mod_eq_of_lt (by omega)
  have hsum : (e + 2 * q) % 2 ^ 64 = e + 2 * q := Nat.mod_eq_of_lt hlt
  have hv : varint [2, 2, 0] = some ((1 : Int), 1, [2, 0]) := by decide
  have hu : uvarint [2, 0] = some (2, 1, [0]) := by decide
  have hval : int64ofInt (-1 + 1) = 0 := by decide
  have hwalk : walkEntriesRun t.quantum f.endPC [2, 2, 0] f.entry (-1) =
      WRes.done [⟨0, 1, e + 2 * q, 1⟩] := by
    rw [hq, he, hend]
    show walkAux q (e + 2 * q) (1 + 1) [2, 2, 0] e (-1) = _
    rw [walkAux_succ, if_pos (by constructor <;> [simp; omega])]
    simp only [hv, hu, hval]
    have hpc2 : (e + 2 * q % 2 ^ 64) % 2 ^ 64 = e + 2 * q := by
      rw [h2q, hsum]
    rw [show (2 : Nat) * q = 2 * q from rfl]
    rw [walkAux_succ]
    have hstop : ¬ (0 < ([0] : List Nat).length ∧
        (e + (2 * q) % 2 ^ 64) % 2 ^ 64 < e + 2 * q) := by
      rw [h2q, hsum]
      simp
    rw [if_neg hstop]
    simp only [h2q, hsum]
  have hforeach : foreachTableEntryM t f junk.length = some [⟨0, 1, e + 2 * q, 1⟩] := by
    unfold foreachTableEntryM
    rw [if_neg (by omega : ¬ junk.length = 0), if_pos hle, hdrop, hwalk]
  refine ⟨hforeach, ?_⟩
  unfold tableSizeM
  rw [hforeach]
  rfl

/-- Witness for the amended C3 statement at a concrete table. -/
theorem c3_amended_tableSize_02_02_00_witness :
    foreachTableEntryM ltC3 fC3 1 = some [⟨0, 1, 2, 1⟩] ∧
    tableSizeM ltC3 fC3 1 = some 2 := by
  have h := c3_amended_tableSize_02_02_00 ltC3 fC3 [0] 1 0 (by decide) (by decide)
    (by decide) (by decide) (by decide) (by decide) (by decide)
  simpa using h

/-! ## Byte-cursor primitives (fixed-width reads, Go slice semantics) -/

/-- binary.ByteOrder.Uint32 on the head of l; none models the bounds-check
panic when fewer than 4 bytes remain. -/
def u32At (bo : ByteOrder) (l : List Nat) : Option Nat :=
  match l with
  | b0 :: b1 :: b2 :: b3 :: _ =>
    some (match bo with
      | ByteOrder.little => b0 + 256 * (b1 + 256 * (b2 + 256 * b3))
      | ByteOrder.big => b3 + 256 * (b2 + 256 * (b1 + 256 * b0)))
  | _ => none

/-- binary.ByteOrder.Uint64 on the head of l. -/
def u64At (bo : ByteOrder) (l : List Nat) : Option Nat :=
  match l with
  | b0 :: b1 :: b2 :: b3 :: b4 :: b5 :: b6 :: b7 :: _ =>
    some (match bo with
      | ByteOrder.little =>
        b0 + 256 * (b1 + 256 * (b2 + 256 * (b3 + 256 *
          (b4 + 256 * (b5 + 256 * (b6 + 256 * b7))))))
      | ByteOrder.big =>
        b7 + 256 * (b6 + 256 * (b5 + 256 * (b4 + 256 *
          (b3 + 256 * (b2 + 256 * (b1 + 256 * b0)))))))
  | _ => none

/-- LineTable.uintptr (pclntab.go:94-99). -/
def uintptrAt (bo : ByteOrder) (ptrsize : Nat) (l : List Nat) : Option Nat :=
  if ptrsize = 4 then u32At bo l else u64At bo l

/-- Go b[off:]: panics (none) when off exceeds the length. -/
def sliceFrom (l : List Nat) (off : Nat) : Option (List Nat) :=
  if off ≤ l.length then some (l.drop off) else none

/-- Go b[:n]: panics (none) when n exceeds the length. -/
def sliceTo (l : List Nat) (n : Nat) : Option (List Nat) :=
  if n ≤ l.length then some (l.take n) else none

def go12magic : Nat := 0xfffffffb
def go116magic : Nat := 0xfffffffa

/-! ## Header parser (LineTable.parsePclnTab, pclntab.go:102-182) -/

/-- The ver12 arm of parsePclnTab's version switch (pclntab.go:166-177). -/
def parseV12 (data : List Nat) (text quantum ptrsize : Nat) (bo : ByteOrder) :
    Option LineTableS := do
  let d1 ← sliceFrom data 8
  let nfunctab ← (uintptrAt bo ptrsize d1).map (fun x => x % 2 ^ 32)
  let functab0 ← sliceFrom data (8 + ptrsize)
  let functabsize := (nfunctab * 2 * ptrsize + ptrsize) % 2 ^ 32
  let fo ← sliceFrom functab0 functabsize
  let fileoff ← u32At bo fo
  let functab ← sliceTo functab0 functabsize
  let filetab0 ← sliceFrom data fileoff
  let nfiletab ← u32At bo filetab0
  let filetab ← sliceTo filetab0 ((nfiletab * 4) % 2 ^ 32)
  some { pc := text, quantum := quantum, ptrsize := ptrsize, bo := bo,
         vers := GoVersion.ver12, nfunctab := nfunctab,
         nfiletab := nfiletab, funcnametab := data,
         cutab := [], funcdata := data, functab := functab,
         filetab := filetab, pctab := data }


/-- The sub-table slices of the ver116 arm of parsePclnTab
(pclntab.go:153-163): funcnametab, cutab, filetab, pctab, funcdata. -/
def parseV116tabs (data : List Nat) (ptrsize : Nat) (bo : ByteOrder) :
    Option (List Nat × List Nat × List Nat × List Nat × List Nat) := do
  let d3 ← sliceFrom data (8 + 2 * ptrsize)
  let off1 ← uintptrAt bo ptrsize d3
  let funcnametab ← sliceFrom data off1
  let d4 ← sliceFrom data (8 + 3 * ptrsize)
  let off2 ← uintptrAt bo ptrsize d4
  let cutab ← sliceFrom data off2
  let d5 ← sliceFrom data (8 + 4 * ptrsize)
  let off3 ← uintptrAt bo ptrsize d5
  let filetab ← sliceFrom data off3
  let d6 ← sliceFrom data (8 + 5 * ptrsize)
  let off4 ← uintptrAt bo ptrsize d6
  let pctab ← sliceFrom data off4
  some (funcnametab, cutab, filetab, pctab, data)

/-- The ver116 arm of parsePclnTab's version switch (pclntab.go:150-165). -/
def parseV116 (data : List Nat) (text quantum ptrsize : Nat) (bo : ByteOrder) :
    Option LineTableS := do
  let d1 ← sliceFrom data 8
  let nfunctab ← (uintptrAt bo ptrsize d1).map (fun x => x % 2 ^ 32)
  let d2 ← sliceFrom data (8 + ptrsize)
  let nfiletab ← (uintptrAt bo ptrsize d2).map (fun x => x % 2 ^ 32)
  let tabs ← parseV116tabs data ptrsize bo
  let d7 ← sliceFrom data (8 + 6 * ptrsize)
  let off5 ← uintptrAt bo ptrsize d7
  let funcdata ← sliceFrom data off5
  let functab0 ← sliceFrom data off5
  let functab ← sliceTo functab0 ((nfunctab * 2 * ptrsize + ptrsize) % 2 ^ 32)
  some { pc := text, quantum := quantum, ptrsize := ptrsize, bo := bo,
         vers := GoVersion.ver116, nfunctab := nfunctab,
         nfiletab := nfiletab, funcnametab := tabs.1,
         cutab := tabs.2.1, funcdata := funcdata, functab := functab,
         filetab := tabs.2.2.1, pctab := tabs.2.2.2.1 }

/-- The magic-word switch of parsePclnTab (pclntab.go:129-143). -/
def magicSelect (leMagic beMagic : Nat) : Option (ByteOrder × GoVersion) :=
  if leMagic = go12magic then some (ByteOrder.little, GoVersion.ver12)
  else if beMagic = go12magic then some (ByteOrder.big, GoVersion.ver12)
  else if leMagic = go116magic then some (ByteOrder.little, GoVersion.ver116)
  else if beMagic = go116magic then some (ByteOrder.big, GoVersion.ver116)
  else none

/-- parsePclnTab: none models every failure path: the header check, an
unrecognized magic word, or a recovered panic from an out-of-range slice.
In all those cases the version stays ver11, isGo12 reports false, and
NewTable returns its error. -/
def parsePclnTab (data : List Nat) (text : Nat) : Option LineTableS :=
  if data.length < 16 ∨ data.getD 4 0 ≠ 0 ∨ data.getD 5 0 ≠ 0 ∨
      (data.getD 6 0 ≠ 1 ∧ data.getD 6 0 ≠ 2 ∧ data.getD 6 0 ≠ 4) ∨
      (data.getD 7 0 ≠ 4 ∧ data.getD 7 0 ≠ 8) then
    none
  else do
    let leMagic ← u32At ByteOrder.little data
    let beMagic ← u32At ByteOrder.big data
    let bv ← magicSelect leMagic beMagic
    match bv.2 with
    | GoVersion.ver12 => parseV12 data text (data.getD 6 0) (data.getD 7 0) bv.1
    | GoVersion.ver116 => parseV116 data text (data.getD 6 0) (data.getD 7 0) bv.1

/-! ## Strings, file map, function table (pclntab.go:234-270, 313-336, 513-536) -/

/-- LineTable.stringFrom / funcName NUL-terminated read: bytes.IndexByte
of 0 in arr[off:]; none models the slice panic when off is out of range,
or when no NUL exists (IndexByte returns -1 and the reslice with uint32
offset 2^32 - 1 panics). -/
def stringFromM (arr : List Nat) (off : Nat) : Option (List Nat) :=
  if off ≤ arr.length then
    match (arr.drop off).findIdx? (fun b => b == 0) with
    | some i => some ((arr.drop off).take i)
    | none => none
  else none

/-- LineTable.funcName (pclntab.go:314-322). -/
def funcNameM (t : LineTableS) (off : Nat) : Option (List Nat) :=
  stringFromM t.funcnametab off

/-- The Go ≥ 1.16 loop of initFileMap: nfiletab sequential NUL-terminated
reads from filetab, advancing by length + 1. -/
def initFileMap116 (t : LineTableS) : Nat → Nat → Option Unit
  | 0, _ => some ()
  | n + 1, pos => do
    let s ← stringFromM t.filetab pos
    initFileMap116 t n (pos + s.length + 1)

/-- LineTable.initFileMap (pclntab.go:513-536): only its panics are
observable for the claims; none models a panic, which NewTable does not
recover from. -/
def initFileMapM (t : LineTableS) : Option Unit :=
  match t.vers with
  | GoVersion.ver12 =>
    (List.range' 1 (t.nfiletab - 1)).foldlM (fun _ i => do
      let sl ← sliceFrom t.filetab (4 * i)
      let off ← u32At t.bo sl
      let _ ← stringFromM t.funcdata off
      pure ()) ()
  | GoVersion.ver116 => initFileMap116 t t.nfiletab 0

/-- funcStruct.field (pclntab.go:209-211): the n-th 4-byte field after the
pointer-sized entry. -/
def fieldAt (t : LineTableS) (enc : List Nat) (n : Nat) : Option Nat := do
  let sl ← sliceFrom enc (t.ptrsize + n * 4)
  u32At t.bo sl

/-- The field index holding funcID and nfuncdata: field 7 before ver116,
field 8 from ver116 on (pclntab.go:220-231). -/
def nfdFieldNum (t : LineTableS) : Nat :=
  if t.vers = GoVersion.ver116 then 8 else 7

/-- The function-table reads of one go12Funcs iteration
(pclntab.go:244-248): entry PC, end PC (the successor entry), and the
descriptor offset. -/
def funcTabEntry (t : LineTableS) (i : Nat) : Option (Nat × Nat × Nat) := do
  let sl1 ← sliceFrom t.functab (2 * i * t.ptrsize)
  let entry ← uintptrAt t.bo t.ptrsize sl1
  let sl2 ← sliceFrom t.functab ((2 * i + 2) * t.ptrsize)
  let endPC ← uintptrAt t.bo t.ptrsize sl2
  let sl3 ← sliceFrom t.functab ((2 * i + 1) * t.ptrsize)
  let fsOff ← uintptrAt t.bo t.ptrsize sl3
  some (entry, endPC, fsOff)

/-- One iteration of go12Funcs (pclntab.go:242-268): decode the descriptor
fields and the function name.  none models a panic on any out-of-bounds
read. -/
def go12FuncOne (t : LineTableS) (i : Nat) : Option FuncS := do
  let ee ← funcTabEntry t i
  let fsb ← sliceFrom t.funcdata ee.2.2
  let argSize ← fieldAt t fsb 1
  let numPCData ← fieldAt t fsb 6
  let nfd ← fieldAt t fsb (nfdFieldNum t)
  let offPCSP ← fieldAt t fsb 3
  let offPCFile ← fieldAt t fsb 4
  let offPCLn ← fieldAt t fsb 5
  let fid ← fieldAt t fsb (nfdFieldNum t)
  let nameOff ← fieldAt t fsb 0
  let name ← funcNameM t nameOff
  pure { entry := ee.1, endPC := ee.2.1, offFixedFunc := ee.2.2,
         funcStructBytes := fsb, argSize := argSize,
         offPCSP := offPCSP, offPCFile := offPCFile, offPCLn := offPCLn,
         numPCData := numPCData, numFuncData := nfd % 256,
         funcID := fid / 2 ^ 24, name := name }

/-- LineTable.go12Funcs (pclntab.go:234-270) before its recover: n =
len(functab)/ptrsize/2 descriptors decoded in order; none models a panic.
The deferred recover turns a panic into a nil function list. -/
def go12FuncsM (t : LineTableS) : Option (List FuncS) :=
  (List.range (t.functab.length / t.ptrsize / 2)).mapM (go12FuncOne t)

/-- go12Funcs as its callers observe it: a recovered panic yields nil. -/
def go12Funcs (t : LineTableS) : List FuncS :=
  (go12FuncsM t).getD []

structure TableS where
  funcs : List FuncS
  lt : LineTableS
deriving DecidableEq

instance : DecidableEq (Except String TableS) := fun x y =>
  match x, y with
  | Except.ok a, Except.ok b =>
    if h : a = b then isTrue (by rw [h])
    else isFalse (by intro hc; cases hc; exact h rfl)
  | Except.error e, Except.error f =>
    if h : e = f then isTrue (by rw [h])
    else isFalse (by intro hc; cases hc; exact h rfl)
  | Except.ok _, Except.error _ => isFalse (by intro hc; cases hc)
  | Except.error _, Except.ok _ => isFalse (by intro hc; cases hc)

/-- NewTable (symtab.go:202-226): an error when the parse fails (isGo12
false); otherwise go12MapFiles runs initFileMap (an uncaught panic there
is the outer none) and the function list is go12Funcs' result, nil when
the descriptor decode panicked. -/
def NewTableM (data : List Nat) (text : Nat) : Option (Except String TableS) :=
  match parsePclnTab data text with
  | none => some (Except.error "not a go1.2+ line table")
  | some lt =>
    (initFileMapM lt).map (fun _ =>
      Except.ok { funcs := go12Funcs lt, lt := lt })

theorem u32At_isSome (bo : ByteOrder) (data : List Nat) (h : 4 ≤ data.length) :
    ∃ v, u32At bo data = some v := by
  cases data with
  | nil => simp at h
  | cons b0 t0 =>
    cases t0 with
    | nil => simp at h
    | cons b1 t1 =>
      cases t1 with
      | nil => simp at h
      | cons b2 t2 =>
        cases t2 with
        | nil => simp at h
        | cons b3 t3 => exact ⟨_, rfl⟩

/-- C6: NewTable returns an error and yields no table whenever the buffer
is shorter than 16 bytes, byte 4 or byte 5 is nonzero, byte 6 (PC
quantum) is not in {1, 2, 4}, byte 7 (pointer width) is not in {4, 8},
or the first 4 bytes match no accepted magic word in either endianness. -/
theorem c6_newTable_header_validation (data : List Nat) (text : Nat)
    (h : data.length < 16 ∨ data.getD 4 0 ≠ 0 ∨ data.getD 5 0 ≠ 0 ∨
      (data.getD 6 0 ≠ 1 ∧ data.getD 6 0 ≠ 2 ∧ data.getD 6 0 ≠ 4) ∨
      (data.getD 7 0 ≠ 4 ∧ data.getD 7 0 ≠ 8) ∨
      ((∀ v, u32At ByteOrder.little data = some v → v ≠ go12magic ∧ v ≠ go116magic) ∧
       (∀ v, u32At ByteOrder.big data = some v → v ≠ go12magic ∧ v ≠ go116magic))) :
    NewTableM data text = some (Except.error "not a go1.2+ line table") := by
  have hparse : parsePclnTab data text = none := by
    unfold parsePclnTab
    by_cases hbad : data.length < 16 ∨ data.getD 4 0 ≠ 0 ∨ data.getD 5 0 ≠ 0 ∨
        (data.getD 6 0 ≠ 1 ∧ data.getD 6 0 ≠ 2 ∧ data.getD 6 0 ≠ 4) ∨
        (data.getD 7 0 ≠ 4 ∧ data.getD 7 0 ≠ 8)
    · rw [if_pos hbad]
    · rw [if_neg hbad]
      have hmagic : (∀ v, u32At ByteOrder.little data = some v →
          v ≠ go12magic ∧ v ≠ go116magic) ∧
          (∀ v, u32At ByteOrder.big data = some v →
          v ≠ go12magic ∧ v ≠ go116magic) := by
        tauto
      have hlen : 16 ≤ data.length := by
        by_contra hc
        exact hbad (Or.inl (by omega))
      obtain ⟨le, hle⟩ := u32At_isSome ByteOrder.little data (by omega)
      obtain ⟨be, hbe⟩ := u32At_isSome ByteOrder.big data (by omega)
      have hsel : magicSelect le be = none := by
        unfold magicSelect
        rw [if_neg (hmagic.1 le hle).1, if_neg (hmagic.2 be hbe).1,
          if_neg (hmagic.1 le hle).2, if_neg (hmagic.2 be hbe).2]
      simp [hle, hbe, hsel]
  unfold NewTableM
  rw [hparse]

theorem c6_newTable_header_validation_witness :
    NewTableM [] 0 = some (Except.error "not a go1.2+ line table") :=
  c6_newTable_header_validation [] 0 (Or.inl (by decide))

/-- The input of the C4 counterexample: a well-formed V12 header
(little-endian, quantum 1, pointer size 4) with nfunctab = 1, one
function-table entry (entry PC 100, end PC 200) whose descriptor offset 28
leaves only 4 bytes of funcdata, so every 4-byte field read at offset
ptrsize + 4n is out of bounds; the file table is valid and empty. -/
def dataC4 : List Nat :=
  [0xFB, 0xFF, 0xFF, 0xFF, 0, 0, 1, 4,
   1, 0, 0, 0,
   100, 0, 0, 0,
   28, 0, 0, 0,
   200, 0, 0, 0,
   28, 0, 0, 0,
   0, 0, 0, 0]

/-- The LineTable parsePclnTab produces for dataC4. -/
def ltC4 : LineTableS :=
  { pc := 0, quantum := 1, ptrsize := 4, bo := ByteOrder.little,
    vers := GoVersion.ver12, nfunctab := 1, nfiletab := 0,
    funcnametab := dataC4, cutab := [], funcdata := dataC4,
    functab := [100, 0, 0, 0, 28, 0, 0, 0, 200, 0, 0, 0],
    filetab := [], pctab := dataC4 }

/-- C4 counterexample: a descriptor field read beyond the funcdata bounds
does not make NewTable return an error: the panic is recovered inside
go12Funcs, which returns nil, and NewTable returns a table with an empty
function list and a nil error. -/
theorem c4_newTable_no_error_counterexample :
    (∃ lt, parsePclnTab dataC4 0 = some lt ∧ go12FuncsM lt = none) ∧
    (∃ tbl, NewTableM dataC4 0 = some (Except.ok tbl) ∧ tbl.funcs = []) := by
  refine ⟨⟨ltC4, by decide, by decide⟩, ⟨⟨[], ltC4⟩, by decide, rfl⟩⟩

/-- C4 amended: if, while decoding the per-function descriptors, any field
read would exceed the bounds of the funcdata region, the decode panic is
recovered inside go12Funcs and no partial function list is produced:
NewTable returns a table whose function list is empty (nil), and no
error. -/
theorem c4_amended_newTable_empty_funcs (data : List Nat) (text : Nat)
    (lt : LineTableS)
    (hparse : parsePclnTab data text = some lt)
    (hpanic : go12FuncsM lt = none)
    (hfiles : initFileMapM lt = some ()) :
    NewTableM data text = some (Except.ok { funcs := [], lt := lt }) := by
  unfold NewTableM
  rw [hparse]
  simp only [hfiles, Option.map_some']
  unfold go12Funcs
  rw [hpanic]
  rfl

theorem c4_amended_newTable_empty_funcs_witness :
    NewTableM dataC4 0 = some (Except.ok { funcs := [], lt := ltC4 }) :=
  c4_amended_newTable_empty_funcs dataC4 0 ltC4 (by decide) (by decide) (by decide)

/-! ## Size attribution (shotizam.go main loop, json-capable variant) -/

/-- pcdataSuffix (shotizam.go:620-630). -/
def pcdataSuffix (n : Nat) : String :=
  if n = 0 then "-regmap"
  else if n = 1 then "-stackmap"
  else if n = 2 then "-inltree"
  else ""

/-- Func.TableSizePCData (symtab.go:113-128): log.Fatal on a bogus index
(modelled none, never hit by main's loop); the table offset is descriptor
field 9+tab for ver116 and 8+tab before; offset 0 means size 0. -/
def tableSizePCDataM (t : LineTableS) (f : FuncS) (tab : Nat) : Option Nat :=
  if f.numPCData ≤ tab then none
  else do
    let tableOff ← fieldAt t f.funcStructBytes
      (if t.vers = GoVersion.ver116 then 9 + tab else 8 + tab)
    if tableOff = 0 then some 0 else tableSizeM t f tableOff

/-- The emit calls of one iteration of main's loop (shotizam.go:562-572):
every (what, size) pair passed to emit, in order, zero sizes included
(emit subtracts the size from the residual before skipping the row). -/
def emitRowsOf (t : LineTableS) (f : FuncS) : Option (List (String × Int)) := do
  let pcsp ← tableSizeM t f f.offPCSP
  let pcfile ← tableSizeM t f f.offPCFile
  let pcln ← tableSizeM t f f.offPCLn
  let pcd ← (List.range f.numPCData).mapM (fun tab =>
    (tableSizePCDataM t f tab).map (fun sz =>
      ("pcdata" ++ toString tab ++ pcdataSuffix tab, (4 + sz : Int))))
  some ([("fixedheader", (t.ptrsize : Int) + 8 * 4),
         ("funcdata", ((t.ptrsize * f.numFuncData : Nat) : Int)),
         ("pcsp", (pcsp : Int)), ("pcfile", (pcfile : Int)), ("pcln", (pcln : Int))]
        ++ pcd
        ++ [("text", asInt64 ((2 ^ 64 + f.endPC - f.entry) % 2 ^ 64)),
            ("funcname", ((f.name.length + 1 : Nat) : Int))])

/-- All emit calls of the whole loop over t.Funcs, in function-table
order. -/
def attributionRowsM (t : LineTableS) (funcs : List FuncS) :
    Option (List (String × Int)) :=
  (funcs.mapM (emitRowsOf t)).map List.flatten

/-- The residual main threads through emit: unaccountedSize is a Go
int64, starting at the binary file size, and every emit call subtracts
its size with wrapping int64 arithmetic (shotizam.go:534, 542-544); the
final value is printed in the TODO row (shotizam.go:577). -/
def finalUnaccounted (binSize : Int) (rows : List (String × Int)) : Int :=
  rows.foldl (fun u r => int64ofInt (u - r.2)) binSize

theorem int64ofInt_idem (x : Int) : int64ofInt (int64ofInt x) = int64ofInt x := by
  unfold int64ofInt
  omega

theorem int64ofInt_sub_left (x y : Int) :
    int64ofInt (int64ofInt x - y) = int64ofInt (x - y) := by
  unfold int64ofInt
  omega

theorem int64ofInt_eq_self {x : Int} (h1 : -(2 ^ 63) ≤ x) (h2 : x < 2 ^ 63) :
    int64ofInt x = x := by
  unfold int64ofInt
  omega

/-- The wrapping subtraction fold telescopes: the final accumulator is
the int64-wrapped difference of the start value and the total sum. -/
theorem finalUnaccounted_eq_wrap (rows : List (String × Int)) :
    ∀ b : Int, int64ofInt b = b →
      finalUnaccounted b rows = int64ofInt (b - (rows.map (fun r => r.2)).sum) := by
  induction rows with
  | nil =>
    intro b hb
    unfold finalUnaccounted
    simpa using hb.symm
  | cons r rest ih =>
    intro b hb
    unfold finalUnaccounted at ih ⊢
    simp only [List.foldl_cons, List.map_cons, List.sum_cons]
    rw [ih (int64ofInt (b - r.2)) (int64ofInt_idem (b - r.2)), int64ofInt_sub_left]
    congr 1
    ring

/-- The LineTable of the C1 witness. -/
def ltC1 : LineTableS :=
  { pc := 0, quantum := 1, ptrsize := 8, bo := ByteOrder.little,
    vers := GoVersion.ver12, nfunctab := 1, nfiletab := 0,
    funcnametab := [], cutab := [], funcdata := [],
    functab := [], filetab := [], pctab := [] }

/-- The function of the C1 witness: entry 0, end 100, name "main.main",
no pcdata, no funcdata, absent pcsp/pcfile/pcln tables. -/
def fC1 : FuncS :=
  { entry := 0, endPC := 100, offFixedFunc := 0, funcStructBytes := [],
    argSize := 0, offPCSP := 0, offPCFile := 0, offPCLn := 0,
    numPCData := 0, numFuncData := 0, funcID := 0,
    name := [109, 97, 105, 110, 46, 109, 97, 105, 110] }

/-- The emit rows of the C1 witness. -/
def rowsC1 : List (String × Int) :=
  [("fixedheader", 40), ("funcdata", 0), ("pcsp", 0), ("pcfile", 0),
   ("pcln", 0), ("text", 100), ("funcname", 10)]

/-- The input of the C1 counterexample: a well-formed V12 blob
(little-endian, quantum 1, pointer size 8) with one function whose
function-table entry PC is 2^63 and whose end sentinel is 0 (the decoder
never validates End > Entry), a valid descriptor at offset 48 with all
table offsets, counts and funcID zero, and an empty file table.  The
text size int64(End - Entry) is then -2^63 and subtracting it overflows
the int64 residual accumulator. -/
def dataC1x : List Nat :=
  [0xFB, 0xFF, 0xFF, 0xFF, 0, 0, 1, 8,
   1, 0, 0, 0, 0, 0, 0, 0,
   0, 0, 0, 0, 0, 0, 0, 0x80,
   48, 0, 0, 0, 0, 0, 0, 0,
   0, 0, 0, 0, 0, 0, 0, 0,
   44, 0, 0, 0,
   0, 0, 0, 0,
   0, 0, 0, 0, 0, 0, 0, 0,
   0, 0, 0, 0,
   0, 0, 0, 0,
   0, 0, 0, 0,
   0, 0, 0, 0,
   0, 0, 0, 0,
   0, 0, 0, 0,
   0, 0, 0, 0,
   0, 0, 0, 0]

/-- The LineTable parsePclnTab produces for dataC1x. -/
def ltC1x : LineTableS :=
  { pc := 0, quantum := 1, ptrsize := 8, bo := ByteOrder.little,
    vers := GoVersion.ver12, nfunctab := 1, nfiletab := 0,
    funcnametab := dataC1x, cutab := [], funcdata := dataC1x,
    functab := [0, 0, 0, 0, 0, 0, 0, 0x80,
                48, 0, 0, 0, 0, 0, 0, 0,
                0, 0, 0, 0, 0, 0, 0, 0],
    filetab := [], pctab := dataC1x }

/-- The function go12Funcs decodes from dataC1x: Entry 2^63, End 0. -/
def fC1x : FuncS :=
  { entry := 2 ^ 63, endPC := 0, offFixedFunc := 48,
    funcStructBytes := dataC1x.drop 48, argSize := 0,
    offPCSP := 0, offPCFile := 0, offPCLn := 0,
    numPCData := 0, numFuncData := 0, funcID := 0,
    name := [0xFB, 0xFF, 0xFF, 0xFF] }

/-- The emit rows for dataC1x: the text size is int64(0 - 2^63) = -2^63. -/
def rowsC1x : List (String × Int) :=
  [("fixedheader", 40), ("funcdata", 0), ("pcsp", 0), ("pcfile", 0),
   ("pcln", 0), ("text", -(2 ^ 63)), ("funcname", 5)]

/-- C1 counterexample: exact byte conservation fails on a successfully
parsed table.  dataC1x parses to one function with Entry 2^63 and End 0;
its text row carries size -2^63, and with binary size 100 the int64
residual accumulator wraps (100 - 40 + 2^63 overflows), so the printed
TODO residual is 2^63 - 2^64 + 60 - 5 and binSize differs from
sum + residual by 2^64. -/
theorem c1_exact_conservation_counterexample :
    (∃ tbl, NewTableM dataC1x 0 = some (Except.ok tbl) ∧
      tbl.funcs = [fC1x] ∧ tbl.lt = ltC1x) ∧
    attributionRowsM ltC1x [fC1x] = some rowsC1x ∧
    (100 : Int) ≠ (rowsC1x.map (fun r => r.2)).sum + finalUnaccounted 100 rowsC1x ∧
    finalUnaccounted 100 rowsC1x ≠ 100 - (rowsC1x.map (fun r => r.2)).sum := by
  refine ⟨⟨⟨[fC1x], ltC1x⟩, by decide, rfl, rfl⟩, by decide, by decide, by decide⟩

/-- C1 amended: the attribution pass conserves bytes modulo int64
wrap-around: the TODO residual equals the int64-wrapped value of the
binary size minus the sum of every size passed to emit over all functions
and categories (zero sizes included, though their rows are skipped), and
the exact identity of the original claim holds precisely when that
difference fits in int64 - which a wrapped text size such as dataC1x's
can violate.  The wrap identity holds for every list of rows; the
hypothesis pins rows to the emit calls the pass makes for the parsed
table, and binSize (a Go int64 file size) is in int64 range. -/
theorem c1_amended_conservation_mod_int64 (binSize : Int) (t : LineTableS)
    (funcs : List FuncS) (rows : List (String × Int))
    (hbin : int64ofInt binSize = binSize)
    (_hrows : attributionRowsM t funcs = some rows) :
    finalUnaccounted binSize rows =
      int64ofInt (binSize - (rows.map (fun r => r.2)).sum) ∧
    (-(2 ^ 63) ≤ binSize - (rows.map (fun r => r.2)).sum →
      binSize - (rows.map (fun r => r.2)).sum < 2 ^ 63 →
      binSize = (rows.map (fun r => r.2)).sum + finalUnaccounted binSize rows) := by
  refine ⟨finalUnaccounted_eq_wrap rows binSize hbin, ?_⟩
  intro h1 h2
  rw [finalUnaccounted_eq_wrap rows binSize hbin, int64ofInt_eq_self h1 h2]
  ring

theorem c1_amended_conservation_mod_int64_witness :
    (1000 : Int) = (rowsC1.map (fun r => r.2)).sum + finalUnaccounted 1000 rowsC1 :=
  (c1_amended_conservation_mod_int64 1000 ltC1 [fC1] rowsC1 (by decide)
    (by decide)).2 (by decide) (by decide)

/-! ## Output diff (shotizam.go:669-713) -/

